import Mathlib

/-!
Verification of the Markdown-to-Word converter (`md_to_word.py`).

The source program is shallowly embedded: text is `List Char`, the regex
scans of `process_markdown_text` are implemented as executable functions
that reproduce the lazy-quantifier semantics of the concrete patterns
used by the source (`(\*\*|__)(.+?)\1`, a backtick-delimited inline-code
pattern, and the link pattern), and the line dispatcher of
`convert_markdown_to_word` is a step function over the list of input
lines.  Word-document objects are out of scope: a paragraph is modelled
by the ordered list of styled runs added to it, a table by its grid of
cell texts, and the command-line entry point by a pure function over the
argument vector and an abstract file-existence oracle.
-/

namespace MD

/-- Program text, modelled as a list of characters. -/
abbrev Text := List Char

/-- The backtick character (used by the inline-code fence and patterns). -/
def tick : Char := Char.ofNat 96

/-- Three backticks: the code-fence marker of the dispatcher. -/
def ticks3 : Text := [tick, tick, tick]

/-- Whitespace in the sense of Python `str.strip()` and the `\s` class
(ASCII fragment: space, tab, newline, carriage return, form feed,
vertical tab). -/
def isPySpace (c : Char) : Bool :=
  c = ' ' || c = '\t' || c = '\n' || c = '\r' || c = Char.ofNat 11 || c = Char.ofNat 12

/-- Python `str.strip()`: drop leading and trailing whitespace. -/
def pyStrip (t : Text) : Text :=
  ((t.dropWhile isPySpace).reverse.dropWhile isPySpace).reverse

/-- Python `str.split(sep)` for a one-character separator: split on every
occurrence, keeping empty pieces. -/
def splitOnChar (sep : Char) : Text → List Text
  | [] => [[]]
  | c :: rest =>
    if c = sep then [] :: splitOnChar sep rest
    else
      match splitOnChar sep rest with
      | h :: tl => (c :: h) :: tl
      | [] => [[c]]

/-- Python `'\n'.join(...)`. -/
def joinNL : List Text → Text
  | [] => []
  | [l] => l
  | l :: ls => l ++ '\n' :: joinNL ls

/-- Python `' '.join(...)`. -/
def joinSpace : List Text → Text
  | [] => []
  | [l] => l
  | l :: ls => l ++ ' ' :: joinSpace ls

/-- Python `str.startswith(pre)`. -/
def startsWithL : Text → Text → Bool
  | [], _ => true
  | _ :: _, [] => false
  | p :: ps, c :: cs => p = c && startsWithL ps cs

/-- First index of `c` in `l` reachable without crossing a newline
(the `.` of the source's patterns does not match a newline); `none` if a
newline or the end of the text comes first. -/
def findStop (l : Text) (c : Char) : Option Nat :=
  match l with
  | [] => none
  | x :: xs =>
    if x = c then some 0
    else if x = '\n' then none
    else (findStop xs c).map (· + 1)

/-- First index `j` of `l` with `l[j] = c` and `l[j+1] = c`, reachable
without crossing a newline; used for the two-character bold delimiters. -/
def findPair : Text → Char → Option Nat
  | [], _ => none
  | [_], _ => none
  | x :: y :: rest, c =>
    if x = '\n' then none
    else if x = c && y = c then some 0
    else (findPair (y :: rest) c).map (· + 1)

/-- Style tag of an inline format match, mirroring the `'type'` (and, for
links, `'url'`) fields of the source's format dictionaries. -/
inductive FmtKind where
  | bold
  | code
  | link (url : Text)
deriving DecidableEq, Repr

/-- One inline format match: character range `[start, fin)`, captured
inner content, style, and the full matched text (`match.group(0)`). -/
structure Fmt where
  start : Nat
  fin : Nat
  content : Text
  kind : FmtKind
  original : Text
deriving DecidableEq, Repr

/-- Scanner for the bold pattern `(\*\*|__)(.+?)\1` (non-overlapping
matches, leftmost first, lazy content): at each position try the
two-star delimiter, then the two-underscore one; the content is the
shortest non-empty newline-free stretch followed by the same delimiter. -/
def scanBold : Nat → Text → Nat → List Fmt
  | 0, _, _ => []
  | fuel + 1, s, p =>
    match s with
    | [] => []
    | c1 :: c2 :: u =>
      if (c1 = '*' && c2 = '*') || (c1 = '_' && c2 = '_') then
        match u with
        | u0 :: urest =>
          if u0 = '\n' then scanBold fuel (c2 :: u) (p + 1)
          else
            match findPair urest c1 with
            | some j =>
              let content := u0 :: urest.take j
              let orig := c1 :: c1 :: (content ++ [c1, c1])
              ⟨p, p + content.length + 4, content, .bold, orig⟩ ::
                scanBold fuel ((c2 :: u).drop (content.length + 3)) (p + content.length + 4)
            | none => scanBold fuel (c2 :: u) (p + 1)
        | [] => scanBold fuel (c2 :: u) (p + 1)
      else scanBold fuel (c2 :: u) (p + 1)
    | [_] => []

/-- Scanner for the inline-code pattern: a backtick, a shortest non-empty
newline-free content, a closing backtick. -/
def scanCode : Nat → Text → Nat → List Fmt
  | 0, _, _ => []
  | fuel + 1, s, p =>
    match s with
    | [] => []
    | c0 :: u =>
      if c0 = tick then
        match u with
        | u0 :: urest =>
          if u0 = '\n' then scanCode fuel u (p + 1)
          else
            match findStop urest tick with
            | some j =>
              let content := u0 :: urest.take j
              let orig := tick :: (content ++ [tick])
              ⟨p, p + content.length + 2, content, .code, orig⟩ ::
                scanCode fuel (u.drop (content.length + 1)) (p + content.length + 2)
            | none => scanCode fuel u (p + 1)
        | [] => scanCode fuel u (p + 1)
      else scanCode fuel u (p + 1)

/-- Lazy second capture of the link pattern: the shortest non-empty
newline-free content followed by a closing parenthesis. -/
def linkTail (v : Text) : Option Nat :=
  match v with
  | [] => none
  | x :: xs => if x = '\n' then none else (findStop xs ')').map (· + 1)

/-- Backtracking search for the body of a link match after the opening
bracket: successive candidate closing brackets are tried (the lazy first
capture), each requiring an immediate opening parenthesis and a valid
second capture; on failure the candidate bracket is absorbed into the
first capture.  `c1rev` is the reversed first capture accumulated so
far. -/
def linkFind : Nat → Text → Text → Option (Text × Text)
  | 0, _, _ => none
  | fuel + 1, c1rev, w =>
    match findStop w ']' with
    | none => none
    | some j =>
      let c1rev2 := (w.take j).reverse ++ c1rev
      match w.drop (j + 1) with
      | '(' :: v =>
        (match linkTail v with
         | some m => some (c1rev2.reverse, v.take m)
         | none => linkFind fuel (']' :: c1rev2) (w.drop (j + 1)))
      | _ => linkFind fuel (']' :: c1rev2) (w.drop (j + 1))

/-- Scanner for the link pattern `[text](url)` with both captures lazy. -/
def scanLink : Nat → Text → Nat → List Fmt
  | 0, _, _ => []
  | fuel + 1, s, p =>
    match s with
    | [] => []
    | c0 :: u =>
      if c0 = '[' then
        match u with
        | u0 :: urest =>
          if u0 = '\n' then scanLink fuel u (p + 1)
          else
            match linkFind (urest.length + 1) [u0] urest with
            | some (c1, c2) =>
              let orig := '[' :: (c1 ++ ']' :: '(' :: (c2 ++ [')']))
              ⟨p, p + c1.length + c2.length + 4, c1, .link c2, orig⟩ ::
                scanLink fuel (s.drop (c1.length + c2.length + 4)) (p + c1.length + c2.length + 4)
            | none => scanLink fuel u (p + 1)
        | [] => scanLink fuel u (p + 1)
      else scanLink fuel u (p + 1)

/-- The source's `re.sub` of the two-star bold pattern by its capture:
each match is replaced by its inner content, the rest is copied
verbatim. -/
def subStar : Nat → Text → Text
  | 0, s => s
  | fuel + 1, s =>
    match s with
    | [] => []
    | c1 :: c2 :: u =>
      if c1 = '*' && c2 = '*' then
        match u with
        | u0 :: urest =>
          if u0 = '\n' then c1 :: subStar fuel (c2 :: u)
          else
            match findPair urest '*' with
            | some j =>
              let content := u0 :: urest.take j
              content ++ subStar fuel ((c2 :: u).drop (content.length + 3))
            | none => c1 :: subStar fuel (c2 :: u)
        | [] => c1 :: subStar fuel (c2 :: u)
      else c1 :: subStar fuel (c2 :: u)
    | [c] => [c]

/-- Total wrapper for `subStar` with sufficient fuel (one unit per
character is enough, since every step consumes at least one). -/
def subStarF (t : Text) : Text := subStar (t.length + 1) t

/-- The source's overlap test between a candidate range `[ms, me)` and an
already-accepted format `f`, transcribed verbatim: the candidate's start
lies in `f`'s range, or its end lies in the half-open-from-above range
`(f.start, f.fin]`. -/
def overlapsPy (ms me : Nat) (f : Fmt) : Bool :=
  (decide (f.start ≤ ms) && decide (ms < f.fin)) ||
    (decide (f.start < me) && decide (me ≤ f.fin))

/-- Accept a candidate unless the source's overlap test flags it against
some already-accepted format. -/
def tryAdd (acc : List Fmt) (m : Fmt) : List Fmt :=
  if acc.all (fun f => !overlapsPy m.start m.fin f) then acc ++ [m] else acc

/-- Stable insertion by start offset (the source's `formats.sort` on the
`'start'` key). -/
def insertFmt (f : Fmt) : List Fmt → List Fmt
  | [] => [f]
  | g :: gs => if f.start ≤ g.start then f :: g :: gs else g :: insertFmt f gs

/-- Stable sort by start offset. -/
def sortByStart : List Fmt → List Fmt
  | [] => []
  | f :: fs => insertFmt f (sortByStart fs)

/-- Format collection of `process_markdown_text`, run on the text with
the two-star bold pairs already substituted away: all bold matches are
accepted unconditionally, then code and link candidates are checked in
turn against the formats accepted so far, and the result is sorted by
start offset. -/
def collectFormats (t : Text) : List Fmt :=
  sortByStart
    (((scanLink (t.length + 1) t 0)).foldl tryAdd
      (((scanCode (t.length + 1) t 0)).foldl tryAdd (scanBold (t.length + 1) t 0)))

/-- The formats `process_markdown_text` accepts for a given input text
(the source computes them on the `**`-stripped copy of the text). -/
def acceptedFormats (text : Text) : List Fmt :=
  collectFormats (subStarF text)

/-- Style of an emitted run. -/
inductive SpanStyle where
  | plain
  | bold
  | code
  | link (url : Text)
deriving DecidableEq, Repr

/-- One styled run added to a paragraph: its text and style. -/
structure Span where
  text : Text
  style : SpanStyle
deriving DecidableEq, Repr

/-- Style applied to a format's run. -/
def FmtKind.toStyle : FmtKind → SpanStyle
  | .bold => .bold
  | .code => .code
  | .link url => .link url

/-- Contiguous slice `t[a:b]` of a text (Python slicing). -/
def sliceTxt (t : Text) (a b : Nat) : Text := (t.drop a).take (b - a)

/-- The emission loop of `process_markdown_text`: a plain run for each
gap strictly ahead of the cursor, a styled run with the captured content
for each format, and a trailing plain run when the cursor is short of
the end. -/
def emitRuns (t : Text) (lastEnd : Nat) : List Fmt → List Span
  | [] => if lastEnd < t.length then [⟨t.drop lastEnd, .plain⟩] else []
  | f :: rest =>
    (if lastEnd < f.start then [⟨sliceTxt t lastEnd f.start, .plain⟩] else []) ++
      ⟨f.content, f.kind.toStyle⟩ :: emitRuns t f.fin rest

/-- `process_markdown_text`: strip two-star bold pairs from the text,
collect and sort the accepted formats of the stripped text, and emit the
runs; with no formats a single plain run holds the whole (stripped)
text. -/
def processMarkdownText (text : Text) : List Span :=
  match acceptedFormats text with
  | [] => [⟨subStarF text, .plain⟩]
  | fs => emitRuns (subStarF text) 0 fs

/-- Concatenation of the texts of a list of runs, in order. -/
def concatSpans (spans : List Span) : Text :=
  spans.foldr (fun s acc => s.text ++ acc) []

/-- Characters admitted by the header-separator row pattern of
`create_table`: pipes, whitespace, dashes, colons. -/
def sepRowChar (c : Char) : Bool :=
  c = '|' || isPySpace c || c = '-' || c = ':'

/-- A header-separator row: non-empty and consisting solely of pipes,
dashes, colons and whitespace. -/
def isSepRow (t : Text) : Bool :=
  (!t.isEmpty) && t.all sepRowChar

/-- Cell extraction of `create_table` for one row: split on pipes, strip
each piece, and keep only the non-empty pieces. -/
def filteredCells (row : Text) : List Text :=
  ((splitOnChar '|' row).map pyStrip).filter (fun c => !c.isEmpty)

/-- Rows of `create_table`: strip and split the block, strip each row,
and drop the second row when it is a header separator. -/
def tableRows (md : Text) : List Text :=
  let rows := (splitOnChar '\n' (pyStrip md)).map pyStrip
  match rows with
  | r0 :: r1 :: rest => if isSepRow r1 then r0 :: rest else rows
  | _ => rows

/-- Column count of `create_table`: the maximum filtered-cell count over
all rows. -/
def tableMaxCols (md : Text) : Nat :=
  (tableRows md).foldl (fun m r => max m (filteredCells r).length) 0

/-- The grid of raw cell texts `create_table` produces: a table of
`len(rows) × max_cols` cells, where cell `(i, j)` receives the `j`-th
filtered cell of row `i` when that exists (the source guards `j <
max_cols`) and stays blank otherwise. -/
def createTable (md : Text) : List (List Text) :=
  (tableRows md).map (fun r =>
    let cs := filteredCells r
    (List.range (tableMaxCols md)).map (fun j =>
      if j < tableMaxCols md then cs.getD j [] else []))

/-- Cell extraction as the spec words it: split on pipes, strip, and
remove only the leading and trailing empty pieces (the artifacts of the
enclosing pipes), keeping interior empty cells. -/
def specRowCells (row : Text) : List Text :=
  ((((splitOnChar '|' row).map pyStrip).dropWhile List.isEmpty).reverse.dropWhile
      List.isEmpty).reverse

/-- A structural block produced by the dispatcher loop of
`convert_markdown_to_word`.  Blocks carry the raw text handed on to the
paragraph/run phase (`process_markdown_text`); the table block carries
its grid of raw cell texts. -/
inductive Block where
  | heading (level : Nat) (text : Text)
  | rule
  | table (grid : List (List Text))
  | bullet (text : Text)
  | number (text : Text)
  | codeBlock (text : Text)
  | quote (text : Text)
  | para (text : Text)
  | blank
deriving DecidableEq, Repr

/-- Count of leading hash characters (the heading-level loop). -/
def leadHash (t : Text) : Nat :=
  (t.takeWhile (fun c => c = '#')).length

/-- The horizontal-rule pattern: the stripped line is exactly three
dashes, three stars, or three underscores. -/
def ruleLine (t : Text) : Bool :=
  t = ['-', '-', '-'] || t = ['*', '*', '*'] || t = ['_', '_', '_']

/-- Marker characters of an unordered list item. -/
def isMarker (c : Char) : Bool := c = '*' || c = '-' || c = '+'

/-- The pattern `[*+-]` followed by whitespace at the head of a text
(the dispatcher applies it to the stripped line). -/
def bulletCore (t : Text) : Bool :=
  match t with
  | c1 :: c2 :: _ => isMarker c1 && isPySpace c2
  | _ => false

/-- The collection pattern of the unordered-list loop: optional leading
whitespace, then a marker and whitespace (applied to the raw line). -/
def bulletRaw (t : Text) : Bool := bulletCore (t.dropWhile isPySpace)

/-- The pattern `\d+\.` followed by whitespace at the head of a text. -/
def numCore (t : Text) : Bool :=
  (!(t.takeWhile Char.isDigit).isEmpty) &&
    (match t.drop (t.takeWhile Char.isDigit).length with
     | c0 :: c1 :: _ => c0 = '.' && isPySpace c1
     | _ => false)

/-- The collection pattern of the ordered-list loop (raw line). -/
def numRaw (t : Text) : Bool := numCore (t.dropWhile isPySpace)

/-- One iteration of the dispatcher loop of `convert_markdown_to_word`
at line `i`: the blocks it appends and the cursor value after the final
`i += 1`.  The branch order and cursor arithmetic mirror the source:
heading (with the seven-plus-hashes paragraph fallback), rule, table,
unordered list, ordered list, fenced code, block quote, paragraph,
blank. -/
def step (lines : List Text) (i : Nat) : List Block × Nat :=
  match lines.get? i with
  | none => ([], i + 1)
  | some raw =>
    let line := pyStrip raw
    if startsWithL ['#'] line then
      if leadHash line ≤ 6 then
        ([.heading (leadHash line) (subStarF (pyStrip (line.drop (leadHash line))))], i + 1)
      else ([.para line], i + 1)
    else if ruleLine line then ([.rule], i + 1)
    else if startsWithL ['|'] line &&
        (match lines.get? (i + 1) with
         | some nxt => startsWithL ['|'] (pyStrip nxt)
         | none => false) then
      let more := (lines.drop (i + 1)).takeWhile (fun l => startsWithL ['|'] (pyStrip l))
      ([.table (createTable (joinNL (line :: more.map pyStrip)))], i + 1 + more.length)
    else if bulletCore line then
      let items := (lines.drop i).takeWhile bulletRaw
      (items.map (fun l => .bullet ((pyStrip l).drop 2)), i + items.length)
    else if numCore line then
      let items := (lines.drop i).takeWhile numRaw
      (items.map (fun l => .number ((pyStrip l).drop 3)), i + items.length)
    else if startsWithL ticks3 line then
      let inner := (lines.drop (i + 1)).takeWhile (fun l => !startsWithL ticks3 l)
      ([.codeBlock (joinNL inner)], i + inner.length + 2)
    else if startsWithL ['>'] line then
      let qs := (lines.drop i).takeWhile (fun l => startsWithL ['>'] (pyStrip l))
      ([.quote (joinSpace (qs.map (fun l => pyStrip ((pyStrip l).drop 1))))], i + qs.length)
    else if !line.isEmpty then ([.para line], i + 1)
    else ([.blank], i + 1)

/-- Fuel-driven driver of the dispatcher loop; since every step advances
the cursor (see the termination theorem below), one unit of fuel per
input line is enough. -/
def convertGo (lines : List Text) : Nat → Nat → List Block
  | 0, _ => []
  | fuel + 1, i =>
    if i < lines.length then
      let r := step lines i
      r.1 ++ convertGo lines fuel r.2
    else []

/-- The block sequence produced by `convert_markdown_to_word` from a
list of input lines. -/
def convertBlocks (lines : List Text) : List Block :=
  convertGo lines lines.length 0

/-- Conversion of a whole document: split the content on newlines and
run the dispatcher loop. -/
def convertDoc (content : Text) : List Block :=
  convertBlocks (splitOnChar '\n' content)

/-- Index of the last occurrence of `c` in `t`, if any (Python
`str.rfind`). -/
def rfindIdx (t : Text) (c : Char) : Option Nat :=
  match t with
  | [] => none
  | x :: xs =>
    match rfindIdx xs c with
    | some j => some (j + 1)
    | none => if x = c then some 0 else none

/-- Root of `os.path.splitext` (POSIX): cut at the last dot when it comes
after the last path separator and the base name has a non-dot character
before it (so leading dots of the base name never start an extension). -/
def splitextRoot (p : Text) : Text :=
  match rfindIdx p '.' with
  | none => p
  | some d =>
    let fstart := match rfindIdx p '/' with
                  | none => 0
                  | some k => k + 1
    if fstart ≤ d then
      if ((p.drop fstart).take (d - fstart)).any (fun c => c ≠ '.') then p.take d
      else p
    else p

/-- Output path used when the second argument is omitted:
`os.path.splitext(md_file_path)[0] + '.docx'`. -/
def resolvedOut (p : Text) : Text :=
  splitextRoot p ++ ".docx".toList

/-- The base-name part of a path prefix: everything after its last
separator (the whole text when it has none). -/
def afterLastSlash (s : Text) : Text :=
  match rfindIdx s '/' with
  | none => s
  | some k => s.drop (k + 1)

/-- Observable outcome of `main`: exit code, the message printed, and
the output path written (`none` when no output file is created). -/
structure MainResult where
  exitCode : Nat
  printed : Text
  wrote : Option Text
deriving DecidableEq, Repr

/-- Text preceding the path in the missing-file error message. -/
def errPre : Text := "错误: 文件 ".toList ++ [Char.ofNat 39]

/-- Text following the path in the missing-file error message. -/
def errSuf : Text := Char.ofNat 39 :: " 不存在".toList

/-- Text preceding the program name in the usage message. -/
def usagePre : Text := "使用方法: ".toList

/-- Text following the program name in the usage message. -/
def usageSuf : Text := " <输入的Markdown文件路径> [输出的Word文件路径]".toList

/-- Text preceding the output path in the success message. -/
def okPre : Text := "转换成功! Word文档已保存到: ".toList

/-- `main`, modelled over the argument vector (program name included)
and an abstract file-existence oracle: fewer than two arguments print
the usage line and exit 1; a missing input file prints an error naming
the path and exits 1 with no output written; otherwise the conversion
runs, the output path (second argument, or derived from the input path)
is written, the success message names it, and the exit code is 0. -/
def mainModel (argv : List Text) (exists? : Text → Bool) : MainResult :=
  match argv with
  | _prog :: input :: rest =>
    if !exists? input then ⟨1, errPre ++ input ++ errSuf, none⟩
    else
      let out := match rest.head? with
                 | some o => o
                 | none => resolvedOut input
      ⟨0, okPre ++ out, some out⟩
  | _ => ⟨1, usagePre ++ argv.headD [] ++ usageSuf, none⟩

/-- Two half-open character ranges intersect. -/
def rangesIntersect (f g : Fmt) : Bool :=
  decide (f.start < g.fin) && decide (g.start < f.fin)

/-- No two formats of the list have intersecting ranges. -/
def pairwiseDisjoint : List Fmt → Bool
  | [] => true
  | f :: fs => fs.all (fun g => !rangesIntersect f g) && pairwiseDisjoint fs

/-- Declarative reconstruction of a text from its accepted matches: the
gap before each match verbatim, then the match's captured content (its
markers dropped), and the remainder verbatim. -/
def spliceFmts (t : Text) (lastEnd : Nat) : List Fmt → Text
  | [] => t.drop lastEnd
  | f :: rest => sliceTxt t lastEnd f.start ++ f.content ++ spliceFmts t f.fin rest

/-- A format's matched text is its content wrapped in the markers of its
kind: paired two-star or two-underscore delimiters for bold, backticks
for inline code, and the bracket/parenthesis frame with the URL for a
link. -/
def markerShape (f : Fmt) : Bool :=
  match f.kind with
  | .bold =>
    f.original = '*' :: '*' :: (f.content ++ ['*', '*']) ||
      f.original = '_' :: '_' :: (f.content ++ ['_', '_'])
  | .code => f.original = tick :: (f.content ++ [tick])
  | .link url => f.original = '[' :: (f.content ++ ']' :: '(' :: (url ++ [')']))

/-- The formats form an ordered chain of non-intersecting ranges inside
the text, starting no earlier than `lastEnd`. -/
def chainFrom (t : Text) (lastEnd : Nat) : List Fmt → Bool
  | [] => true
  | f :: rest =>
    decide (lastEnd ≤ f.start) && decide (f.start ≤ f.fin) &&
      decide (f.fin ≤ t.length) && chainFrom t f.fin rest

/-- Sample line on which the source's overlap test fails to reject an
inline-code candidate that strictly contains the accepted bold match:
a backtick, then `a __b__ c`, then a backtick. -/
def sampleOverlap : Text := tick :: ("a __b__ c".toList ++ [tick])

/-- Sample line whose accepted matches (one code, one link, one bold)
are pairwise disjoint: `x `, a backtick-code `c`, ` y `, a link, a
space, and a two-underscore bold. -/
def sampleDisjoint : Text :=
  "x ".toList ++ tick :: 'c' :: tick :: " y [t](u) __b__".toList

/-- Claim C1.  On the input `**bold**` the inline formatter emits a
single PLAIN run with text `bold` and no bold run at all: the source
strips the two-star pairs from the text before the bold scan runs, so
the two-star branch of the bold pattern never fires.  The asterisks
indeed never appear in the output, but the bold styling is lost, against
both the spec and the function's own comments. -/
theorem c1_bold_detection_lost :
    processMarkdownText ("**bold**".toList) = [⟨"bold".toList, .plain⟩] ∧
    processMarkdownText ("x **bold** y".toList) = [⟨"x bold y".toList, .plain⟩] ∧
    (processMarkdownText ("**bold**".toList)).all
      (fun s => s.style ≠ SpanStyle.bold && '*' ∉ s.text) = true := by
  refine ⟨by decide, by decide, by decide⟩

/-- Claim C2.  On `sampleOverlap` the accepted matches are NOT pairwise
non-intersecting: the bold match over characters 3..8 is accepted first,
and the inline-code candidate over characters 0..11 — which strictly
contains it — passes the source's overlap test (neither its start nor
its end falls inside the bold range) and is accepted as well. -/
theorem c2_accepted_matches_intersect :
    (acceptedFormats sampleOverlap).map (fun f => (f.start, f.fin)) = [(0, 11), (3, 8)] ∧
    pairwiseDisjoint (acceptedFormats sampleOverlap) = false := by
  refine ⟨by decide, by decide⟩

/-- Claim C6.  Converting the table `| A | B |` / `|---|---|` /
`| 1 | 2 |` yields exactly one table block with a 2-by-2 grid of cells
`A`,`B` and `1`,`2`: the header-separator row is removed and produces no
data row.  The second conjunct runs each cell through the inline
formatter and confirms the rendered cell texts. -/
theorem c6_table_roundtrip :
    convertDoc ("| A | B |\n|---|---|\n| 1 | 2 |".toList) =
      [Block.table [["A".toList, "B".toList], ["1".toList, "2".toList]]] ∧
    (createTable ("| A | B |\n|---|---|\n| 1 | 2 |".toList)).map
        (fun r => r.map (fun c => concatSpans (processMarkdownText c))) =
      [["A".toList, "B".toList], ["1".toList, "2".toList]] := by
  refine ⟨by decide, by decide⟩

/-- The running maximum computed by a left fold never drops below its
initial value. -/
theorem le_foldl_max {α : Type} (f : α → Nat) :
    ∀ (l : List α) (init : Nat), init ≤ l.foldl (fun m y => max m (f y)) init := by
  intro l
  induction l with
  | nil => intro init; exact Nat.le_refl _
  | cons a l ih =>
    intro init
    exact Nat.le_trans (Nat.le_max_left init (f a)) (ih (max init (f a)))

/-- Every member's value is bounded by the left-fold maximum. -/
theorem foldl_max_le_of_mem {α : Type} (f : α → Nat) :
    ∀ (l : List α) (init : Nat) (x : α), x ∈ l →
      f x ≤ l.foldl (fun m y => max m (f y)) init := by
  intro l
  induction l with
  | nil => intro init x hx; cases hx
  | cons a l ih =>
    intro init x hx
    rcases List.mem_cons.mp hx with h | h
    · subst h
      exact Nat.le_trans (Nat.le_max_right init (f x)) (le_foldl_max f l _)
    · exact ih _ x h

/-- Filling `n` indexed cells from a shorter list and leaving the rest
blank is the list followed by blank padding. -/
theorem range_fill_eq_append_pad (cs : List Text) :
    ∀ n : Nat, cs.length ≤ n →
      (List.range n).map (fun j => if j < n then cs.getD j [] else []) =
        cs ++ List.replicate (n - cs.length) [] := by
  induction cs with
  | nil =>
    intro n _
    simp [List.map_const']
  | cons c cs ih =>
    intro n hn
    match n, hn with
    | m + 1, hn =>
      rw [List.range_succ_eq_map, List.map_cons, List.map_map]
      have h0 : (if 0 < m + 1 then (c :: cs).getD 0 [] else []) = c := by simp
      rw [h0]
      have hfun : ((fun j => if j < m + 1 then (c :: cs).getD j [] else []) ∘ (· + 1)) =
          (fun j => if j < m then cs.getD j [] else []) := by
        funext j
        simp [Function.comp, Nat.succ_lt_succ_iff]
      rw [hfun, ih m (Nat.le_of_succ_le_succ hn)]
      simp [List.cons_append, Nat.succ_sub_succ]

/-- Claim C3, counterexample.  On the row `| a |  | b |` the code's cell
extraction removes ALL empty cells, not only the leading and trailing
pipe artifacts: the interior blank cell disappears and is not what the
spec's extraction (which keeps it) produces; in a table this shifts `b`
into the second column instead of leaving a blank there. -/
theorem c3_interior_empty_cell_dropped :
    filteredCells ("| a |  | b |".toList) = ["a".toList, "b".toList] ∧
    specRowCells ("| a |  | b |".toList) = ["a".toList, [], "b".toList] ∧
    filteredCells ("| a |  | b |".toList) ≠ specRowCells ("| a |  | b |".toList) ∧
    createTable ("| a |  | b |\n| x | y | z |".toList) =
      [["a".toList, "b".toList, []], ["x".toList, "y".toList, "z".toList]] := by
  refine ⟨by decide, by decide, by decide, by decide⟩

/-- Claim C3, amended.  Cells of a row are obtained by splitting on
pipes, trimming, and removing ALL empty cells — interior empty cells are
dropped, shifting later content left — and each table row is the
filtered cell list followed by blank cells up to the table's column
count. -/
theorem c3_rows_filtered_and_padded (md : Text) :
    createTable md = (tableRows md).map (fun r =>
      filteredCells r ++ List.replicate (tableMaxCols md - (filteredCells r).length) []) := by
  unfold createTable
  apply List.map_congr_left
  intro r hr
  exact range_fill_eq_append_pad (filteredCells r) (tableMaxCols md)
    (foldl_max_le_of_mem (fun r => (filteredCells r).length) (tableRows md) 0 r hr)

/-- Dropping the leading whitespace of a line leaves the stripped line
followed by (whitespace) residue. -/
theorem strip_decomp (raw : Text) :
    ∃ w, raw.dropWhile isPySpace = pyStrip raw ++ w := by
  refine ⟨((raw.dropWhile isPySpace).reverse.takeWhile isPySpace).reverse, ?_⟩
  unfold pyStrip
  rw [← List.reverse_append, List.takeWhile_append_dropWhile, List.reverse_reverse]

/-- A line whose stripped form opens with a bullet marker and whitespace
matches the raw bullet-collection pattern. -/
theorem bulletRaw_of_stripped (raw : Text) (h : bulletCore (pyStrip raw) = true) :
    bulletRaw raw = true := by
  obtain ⟨w, hw⟩ := strip_decomp raw
  unfold bulletRaw
  rw [hw]
  cases hs : pyStrip raw with
  | nil => rw [hs] at h; simp [bulletCore] at h
  | cons c1 t =>
    cases t with
    | nil => rw [hs] at h; simp [bulletCore] at h
    | cons c2 r =>
      rw [hs] at h
      simpa [bulletCore, List.cons_append] using h

/-- A while-list of elements satisfying `p`, followed by an element
refuting `p`, is the exact take-while prefix. -/
theorem takeWhile_append_of_head_neg {p : Char → Bool} :
    ∀ (l1 : List Char), (∀ x ∈ l1, p x = true) → ∀ (y : Char) (l2 : List Char),
      p y = false → (l1 ++ y :: l2).takeWhile p = l1 := by
  intro l1
  induction l1 with
  | nil =>
    intro _ y l2 hy
    simp [List.takeWhile_cons, hy]
  | cons a l ih =>
    intro ha y l2 hy
    have hpa : p a = true := ha a (List.mem_cons_self a l)
    simp only [List.cons_append, List.takeWhile_cons, hpa, if_true]
    rw [ih (fun x hx => ha x (List.mem_cons_of_mem a hx)) y l2 hy]

/-- Dropping as many elements as the take-while prefix is long leaves
the drop-while suffix. -/
theorem drop_takeWhile_length {p : Char → Bool} :
    ∀ l : List Char, l.drop (l.takeWhile p).length = l.dropWhile p := by
  intro l
  induction l with
  | nil => simp
  | cons a l ih =>
    by_cases hpa : p a = true
    · simp [List.takeWhile_cons, List.dropWhile_cons, hpa, ih]
    · rw [Bool.not_eq_true] at hpa
      simp [List.takeWhile_cons, List.dropWhile_cons, hpa]

/-- A line whose stripped form matches the numbered-item pattern matches
the raw numbered-collection pattern. -/
theorem numRaw_of_stripped (raw : Text) (h : numCore (pyStrip raw) = true) :
    numRaw raw = true := by
  obtain ⟨w, hw⟩ := strip_decomp raw
  unfold numRaw
  rw [hw]
  set s := pyStrip raw with hsdef
  set ds := s.takeWhile Char.isDigit with hds
  unfold numCore at h
  rw [Bool.and_eq_true] at h
  obtain ⟨hne, hmatch⟩ := h
  rw [← hds, drop_takeWhile_length] at hmatch
  cases hrest : s.dropWhile Char.isDigit with
  | nil => rw [hrest] at hmatch; simp at hmatch
  | cons y t =>
    rw [hrest] at hmatch
    cases t with
    | nil => simp at hmatch
    | cons c r =>
      rw [Bool.and_eq_true] at hmatch
      obtain ⟨hy, hc⟩ := hmatch
      have hy' : y = '.' := of_decide_eq_true hy
      subst hy'
      have hstrip_eq : s = ds ++ ('.' :: c :: r) := by
        rw [hds, ← hrest]
        exact (List.takeWhile_append_dropWhile Char.isDigit s).symm
      have hdigits : ∀ x ∈ ds, Char.isDigit x = true :=
        fun x hx => List.mem_takeWhile_imp (hds ▸ hx)
      have htake : (s ++ w).takeWhile Char.isDigit = ds := by
        conv_lhs => rw [hstrip_eq]
        rw [List.append_assoc, List.cons_append]
        exact takeWhile_append_of_head_neg _ hdigits '.' _ (by decide)
      unfold numCore
      rw [htake, Bool.and_eq_true]
      refine ⟨hne, ?_⟩
      have hdrop2 : (s ++ w).drop ds.length = '.' :: c :: (r ++ w) := by
        conv_lhs => rw [hstrip_eq]
        rw [List.append_assoc, List.drop_left]
        simp
      rw [hdrop2]
      simp [hc]

/-- Claim C10.  Every iteration of the dispatcher loop strictly
increases the line cursor: single-line branches advance by one, and
every multi-line block (table, lists, fence, quote) consumes at least
its first line before the final increment, so the conversion pass
terminates on every finite input — an unterminated code fence consumes
all remaining lines and the loop then ends. -/
theorem c10_cursor_strictly_increases (lines : List Text) (i : Nat)
    (hi : i < lines.length) : i < (step lines i).2 := by
  have hraw : lines.get? i = some (lines.get ⟨i, hi⟩) := List.get?_eq_get hi
  have hdropi : lines.drop i = lines.get ⟨i, hi⟩ :: lines.drop (i + 1) :=
    List.drop_eq_getElem_cons hi
  unfold step
  rw [hraw]
  simp only []
  split_ifs with h1 h2 h3 h4 h5 h6 h7 h8 h9
  · omega
  · omega
  · omega
  · -- table branch
    omega
  · -- bullet branch
    have : bulletRaw (lines.get ⟨i, hi⟩) = true := bulletRaw_of_stripped _ h5
    rw [hdropi, List.takeWhile_cons, this]
    simp only [if_true, List.length_cons]
    omega
  · -- numbered branch
    have : numRaw (lines.get ⟨i, hi⟩) = true := numRaw_of_stripped _ h6
    rw [hdropi, List.takeWhile_cons, this]
    simp only [if_true, List.length_cons]
    omega
  · -- fence branch
    omega
  · -- quote branch
    rw [hdropi, List.takeWhile_cons, h8]
    simp only [if_true, List.length_cons]
    omega
  · omega
  · omega

/-- Witness for the termination theorem at a concrete input. -/
theorem c10_cursor_witness : 0 < (step ["- x".toList] 0).2 :=
  c10_cursor_strictly_increases ["- x".toList] 0 (by decide)

/-- A text that passes a starts-with test is the tested pattern followed
by a remainder. -/
theorem startsWithL_decomp :
    ∀ (pre t : Text), startsWithL pre t = true → ∃ r, t = pre ++ r := by
  intro pre
  induction pre with
  | nil => intro t _; exact ⟨t, rfl⟩
  | cons p ps ih =>
    intro t h
    cases t with
    | nil => simp [startsWithL] at h
    | cons c cs =>
      unfold startsWithL at h
      rw [Bool.and_eq_true] at h
      obtain ⟨hp, hrest⟩ := h
      have hpc : p = c := of_decide_eq_true hp
      obtain ⟨r, hr⟩ := ih cs hrest
      exact ⟨r, by rw [List.cons_append, ← hpc, hr]⟩

/-- A non-zero count of leading hashes means the text starts with a
hash. -/
theorem startsWith_hash_of_leadHash (t : Text) (h : 1 ≤ leadHash t) :
    startsWithL ['#'] t = true := by
  cases t with
  | nil => simp [leadHash] at h
  | cons c cs =>
    by_cases hc : c = '#'
    · subst hc
      simp [startsWithL]
    · unfold leadHash at h
      rw [List.takeWhile_cons] at h
      simp only [decide_eq_true_eq] at h
      rw [if_neg hc] at h
      simp at h

/-- Claim C5.  A line whose stripped form begins with hash characters is
dispatched by their count: with one to six leading hashes the emitted
block is a heading whose level is that count and whose text is the
remainder, stripped of surrounding whitespace and of two-star bold
pairs; with seven or more it is an ordinary paragraph holding the whole
stripped line.  Either way the cursor advances by one. -/
theorem c5_heading_dispatch (lines : List Text) (i : Nat) (raw : Text)
    (hget : lines.get? i = some raw) (h1 : 1 ≤ leadHash (pyStrip raw)) :
    step lines i =
      (if leadHash (pyStrip raw) ≤ 6 then
        [Block.heading (leadHash (pyStrip raw))
          (subStarF (pyStrip ((pyStrip raw).drop (leadHash (pyStrip raw)))))]
       else [Block.para (pyStrip raw)], i + 1) := by
  have hstart : startsWithL ['#'] (pyStrip raw) = true :=
    startsWith_hash_of_leadHash _ h1
  unfold step
  rw [hget]
  simp only [hstart, if_true]
  split_ifs <;> rfl

/-- Witness for the heading dispatch: a level-2 heading with bold
markers stripped from its title, and a seven-hash line rendered as a
paragraph. -/
theorem c5_heading_witness :
    step ["## **T** x".toList] 0 = ([Block.heading 2 ("T x".toList)], 1) ∧
    step ["####### deep".toList] 0 = ([Block.para ("####### deep".toList)], 1) := by
  constructor
  · exact (c5_heading_dispatch ["## **T** x".toList] 0 ("## **T** x".toList)
      (by decide) (by decide)).trans (by decide)
  · exact (c5_heading_dispatch ["####### deep".toList] 0 ("####### deep".toList)
      (by decide) (by decide)).trans (by decide)

/-- Claim C7.  A line whose stripped form starts with three backticks
opens a fenced code block: the block's text is the verbatim
newline-join of all following lines up to (not including) the next raw
line starting with three backticks, and the cursor lands one past that
closing fence line, which therefore produces no output. -/
theorem c7_fenced_code_block (lines : List Text) (i : Nat) (raw : Text)
    (hget : lines.get? i = some raw) (hf : startsWithL ticks3 (pyStrip raw) = true) :
    step lines i =
      ([Block.codeBlock (joinNL
          ((lines.drop (i + 1)).takeWhile (fun l => !startsWithL ticks3 l)))],
       i + ((lines.drop (i + 1)).takeWhile (fun l => !startsWithL ticks3 l)).length + 2) := by
  obtain ⟨r, hr⟩ := startsWithL_decomp ticks3 (pyStrip raw) hf
  unfold step
  rw [hget]
  simp only [hr]
  rfl

/-- Witness for the fence dispatch: the two inner lines are joined with
a newline, the closing fence is consumed, and the cursor lands past
it. -/
theorem c7_fenced_code_witness :
    step [ticks3, "line1".toList, "line2".toList, ticks3] 0 =
      ([Block.codeBlock ("line1\nline2".toList)], 4) :=
  (c7_fenced_code_block [ticks3, "line1".toList, "line2".toList, ticks3] 0 ticks3
    (by decide) (by decide)).trans (by decide)

/-- Last-occurrence search distributes over append: an occurrence in
the right part wins, otherwise the left part is searched. -/
theorem rfindIdx_append (l1 l2 : Text) (c : Char) :
    rfindIdx (l1 ++ l2) c =
      (match rfindIdx l2 c with
       | some j => some (l1.length + j)
       | none => rfindIdx l1 c) := by
  induction l1 with
  | nil =>
    cases h : rfindIdx l2 c <;> simp [h, rfindIdx]
  | cons x xs ih =>
    rw [List.cons_append]
    show (match rfindIdx (xs ++ l2) c with
          | some j => some (j + 1)
          | none => if x = c then some 0 else none) = _
    rw [ih]
    cases h : rfindIdx l2 c with
    | some j =>
      simp only [List.length_cons]
      congr 1
      omega
    | none => rfl

/-- A character absent from a text is never found. -/
theorem rfindIdx_eq_none (l : Text) (c : Char) (h : c ∉ l) : rfindIdx l c = none := by
  induction l with
  | nil => rfl
  | cons x xs ih =>
    unfold rfindIdx
    rw [ih (fun hm => h (List.mem_cons_of_mem x hm))]
    have hx : ¬x = c := fun he => h (he ▸ List.mem_cons_self x xs)
    simp [hx]

/-- A found index is inside the text. -/
theorem rfindIdx_lt_length (l : Text) (c : Char) :
    ∀ j, rfindIdx l c = some j → j < l.length := by
  induction l with
  | nil => intro j h; simp [rfindIdx] at h
  | cons x xs ih =>
    intro j h
    unfold rfindIdx at h
    cases hx : rfindIdx xs c with
    | some k =>
      rw [hx] at h
      simp only [Option.some.injEq] at h
      subst h
      exact Nat.succ_lt_succ (ih k hx)
    | none =>
      rw [hx] at h
      by_cases hxc : x = c
      · rw [if_pos hxc] at h
        simp only [Option.some.injEq] at h
        subst h
        exact Nat.succ_le_succ (Nat.zero_le _)
      · rw [if_neg hxc] at h
        cases h

/-- Claim C9.  When the output path is omitted it is the input path with
its extension replaced by `.docx`: for a path of the form
`stem.extension` — the extension free of dots and separators, and the
stem's base name containing a non-dot character, so that the shown dot
is the one `os.path.splitext` cuts at — the result is the stem followed
by `.docx`; a path containing no dot at all gets `.docx` appended to the
whole of it. -/
theorem c9_output_path_replaces_extension :
    (∀ (s e : Text), '.' ∉ e → '/' ∉ e →
       (afterLastSlash s).any (fun c => c ≠ '.') = true →
       resolvedOut (s ++ '.' :: e) = s ++ ".docx".toList) ∧
    (∀ p : Text, '.' ∉ p → resolvedOut p = p ++ ".docx".toList) := by
  constructor
  · intro s e hde hse hbase
    have hd : rfindIdx (s ++ '.' :: e) '.' = some s.length := by
      rw [rfindIdx_append]
      have he : rfindIdx e '.' = none := rfindIdx_eq_none e '.' hde
      simp [rfindIdx, he]
    have hs : rfindIdx (s ++ '.' :: e) '/' = rfindIdx s '/' := by
      rw [rfindIdx_append]
      have he : rfindIdx ('.' :: e) '/' = none := by
        apply rfindIdx_eq_none
        intro hm
        rcases List.mem_cons.mp hm with h | h
        · cases h
        · exact hse h
      rw [he]
    unfold resolvedOut splitextRoot
    rw [hd, hs]
    cases hk : rfindIdx s '/' with
    | none =>
      dsimp only
      have hfs : 0 ≤ s.length := Nat.zero_le _
      rw [if_pos hfs]
      have hfname : ((s ++ '.' :: e).drop 0).take (s.length - 0) = s := by
        simp only [List.drop_zero, Nat.sub_zero]
        exact List.take_left s ('.' :: e)
      rw [hfname]
      have hany : s.any (fun c => c ≠ '.') = true := by
        have : afterLastSlash s = s := by unfold afterLastSlash; rw [hk]
        rw [← this]; exact hbase
      rw [if_pos hany]
      rw [List.take_left]
    | some k =>
      dsimp only
      have hklt : k < s.length := rfindIdx_lt_length s '/' k hk
      have hfs : k + 1 ≤ s.length := hklt
      rw [if_pos hfs]
      have hdrop : (s ++ '.' :: e).drop (k + 1) = s.drop (k + 1) ++ '.' :: e :=
        List.drop_append_of_le_length hfs
      have hlen : (s.drop (k + 1)).length = s.length - (k + 1) := List.length_drop _ _
      have hfname : ((s ++ '.' :: e).drop (k + 1)).take (s.length - (k + 1)) =
          s.drop (k + 1) := by
        rw [hdrop, ← hlen, List.take_left]
      rw [hfname]
      have hany : (s.drop (k + 1)).any (fun c => c ≠ '.') = true := by
        have : afterLastSlash s = s.drop (k + 1) := by unfold afterLastSlash; rw [hk]
        rw [← this]; exact hbase
      rw [if_pos hany]
      rw [List.take_left]
  · intro p hp
    unfold resolvedOut splitextRoot
    rw [rfindIdx_eq_none p '.' hp]

/-- Witness for the output-path derivation: `report.md` resolves to
`report.docx`. -/
theorem c9_output_path_witness : resolvedOut ("report.md".toList) = "report.docx".toList := by
  have h2 : ("report.md".toList : Text) = "report".toList ++ '.' :: "md".toList := by decide
  rw [h2, c9_output_path_replaces_extension.1 ("report".toList) ("md".toList)
    (by decide) (by decide) (by decide)]
  decide

/-- Claim C8.  Command-line behaviour of `main`, over the argument
vector and the file-existence oracle: (1) a non-existent input path
exits with code 1 printing the error message that embeds that path, and
no output file is created; (2) fewer than two arguments (no input path)
exit with code 1 and create nothing; (3) with an existing input and the
output argument omitted, the run exits with code 0, prints the resolved
output path, and writes exactly that path. -/
theorem c8_cli_behaviour :
    (∀ (prog input : Text) (rest : List Text) (ex : Text → Bool),
       ex input = false →
       mainModel (prog :: input :: rest) ex = ⟨1, errPre ++ input ++ errSuf, none⟩) ∧
    (∀ (argv : List Text) (ex : Text → Bool), argv.length < 2 →
       (mainModel argv ex).exitCode = 1 ∧ (mainModel argv ex).wrote = none) ∧
    (∀ (prog input : Text) (ex : Text → Bool), ex input = true →
       mainModel [prog, input] ex =
         ⟨0, okPre ++ resolvedOut input, some (resolvedOut input)⟩) := by
  refine ⟨?_, ?_, ?_⟩
  · intro prog input rest ex h
    simp [mainModel, h]
  · intro argv ex h
    match argv with
    | [] => exact ⟨rfl, rfl⟩
    | [a] => exact ⟨rfl, rfl⟩
    | a :: b :: t => exact absurd h (by simp [Nat.add_assoc])
  · intro prog input ex h
    simp [mainModel, h]

/-- Witness for the command-line model: a missing `report.md` exits 1
with the path named in the message and nothing written; an existing one
exits 0 printing and writing `report.docx`; a bare invocation exits
1. -/
theorem c8_cli_witness :
    mainModel ["prog".toList, "report.md".toList] (fun _ => false) =
      ⟨1, errPre ++ "report.md".toList ++ errSuf, none⟩ ∧
    mainModel ["prog".toList, "report.md".toList] (fun _ => true) =
      ⟨0, okPre ++ resolvedOut ("report.md".toList),
        some (resolvedOut ("report.md".toList))⟩ ∧
    (mainModel ["prog".toList] (fun _ => false)).exitCode = 1 :=
  ⟨c8_cli_behaviour.1 _ _ _ _ rfl, c8_cli_behaviour.2.2 _ _ _ rfl,
    (c8_cli_behaviour.2.1 ["prog".toList] _ (by decide)).1⟩

/-- A drop decomposition turns a take at an offset past `j` into the
take at `j` plus a take from the suffix. -/
theorem take_add_of_drop {l xs : Text} {j : Nat} (h : l.drop j = xs) (hj : j ≤ l.length)
    (n : Nat) : l.take (j + n) = l.take j ++ xs.take n := by
  conv_lhs => rw [← List.take_append_drop j l]
  rw [h]
  have hlen : (l.take j).length = j := by
    rw [List.length_take]
    exact Nat.min_eq_left hj
  rw [List.take_append_eq_append_take, hlen, Nat.add_sub_cancel_left,
    List.take_take, Nat.min_eq_right (Nat.le_add_right j n)]

/-- The search `findStop` names the first reachable index holding the
target: the text from that index on starts with the target. -/
theorem findStop_drop {c : Char} :
    ∀ (l : Text) (j : Nat), findStop l c = some j → l.drop j = c :: l.drop (j + 1) := by
  intro l
  induction l with
  | nil => intro j h; simp [findStop] at h
  | cons x xs ih =>
    intro j h
    unfold findStop at h
    by_cases hx : x = c
    · rw [if_pos hx] at h
      simp only [Option.some.injEq] at h
      subst h
      rw [hx]
      rfl
    · rw [if_neg hx] at h
      by_cases hn : x = '\n'
      · rw [if_pos hn] at h; cases h
      · rw [if_neg hn] at h
        cases hfs : findStop xs c with
        | none => rw [hfs] at h; cases h
        | some k =>
          rw [hfs] at h
          simp at h
          subst h
          exact ih k hfs

/-- The search `findPair` names the first reachable index holding two
adjacent targets. -/
theorem findPair_drop {c : Char} :
    ∀ (l : Text) (j : Nat), findPair l c = some j → l.drop j = c :: c :: l.drop (j + 2) := by
  intro l
  induction l with
  | nil => intro j h; exact Option.noConfusion h
  | cons x xs ih =>
    intro j h
    cases xs with
    | nil => exact Option.noConfusion h
    | cons y rest =>
      unfold findPair at h
      by_cases hn : x = '\n'
      · rw [if_pos hn] at h; cases h
      · rw [if_neg hn] at h
        by_cases hp : (x = c && y = c) = true
        · rw [if_pos hp] at h
          simp only [Option.some.injEq] at h
          subst h
          rw [Bool.and_eq_true] at hp
          obtain ⟨hx, hy⟩ := hp
          have hx' : x = c := of_decide_eq_true hx
          have hy' : y = c := of_decide_eq_true hy
          rw [hx', hy']
          rfl
        · rw [if_neg hp] at h
          cases hfs : findPair (y :: rest) c with
          | none => rw [hfs] at h; cases h
          | some k =>
            rw [hfs] at h
            simp at h
            subst h
            exact ih k hfs

/-- Candidates surviving `tryAdd` come from the accumulator or are the
candidate itself. -/
theorem mem_tryAdd {acc : List Fmt} {m g : Fmt} (h : g ∈ tryAdd acc m) :
    g ∈ acc ∨ g = m := by
  unfold tryAdd at h
  split at h
  · rcases List.mem_append.mp h with h | h
    · exact Or.inl h
    · exact Or.inr (List.mem_singleton.mp h)
  · exact Or.inl h

/-- Formats surviving a `tryAdd` fold come from the accumulator or the
candidate list. -/
theorem mem_foldl_tryAdd :
    ∀ (ms : List Fmt) (acc : List Fmt) (g : Fmt),
      g ∈ ms.foldl tryAdd acc → g ∈ acc ∨ g ∈ ms := by
  intro ms
  induction ms with
  | nil => intro acc g h; exact Or.inl h
  | cons m ms ih =>
    intro acc g h
    rcases ih (tryAdd acc m) g h with h2 | h2
    · rcases mem_tryAdd h2 with h3 | h3
      · exact Or.inl h3
      · exact Or.inr (h3 ▸ List.mem_cons_self m ms)
    · exact Or.inr (List.mem_cons_of_mem m h2)

/-- Insertion introduces no new elements. -/
theorem mem_insertFmt {f g : Fmt} :
    ∀ l : List Fmt, g ∈ insertFmt f l → g = f ∨ g ∈ l := by
  intro l
  induction l with
  | nil =>
    intro h
    simpa [insertFmt] using h
  | cons x xs ih =>
    intro h
    unfold insertFmt at h
    split at h
    · rcases List.mem_cons.mp h with h2 | h2
      · exact Or.inl h2
      · exact Or.inr h2
    · rcases List.mem_cons.mp h with h2 | h2
      · exact Or.inr (h2 ▸ List.mem_cons_self x xs)
      · rcases ih h2 with h3 | h3
        · exact Or.inl h3
        · exact Or.inr (List.mem_cons_of_mem x h3)

/-- Sorting introduces no new elements. -/
theorem mem_sortByStart {g : Fmt} :
    ∀ l : List Fmt, g ∈ sortByStart l → g ∈ l := by
  intro l
  induction l with
  | nil => intro h; simp [sortByStart] at h
  | cons f fs ih =>
    intro h
    unfold sortByStart at h
    rcases mem_insertFmt _ h with h2 | h2
    · exact h2 ▸ List.mem_cons_self f fs
    · exact List.mem_cons_of_mem f (ih h2)

/-- Concatenation of runs, one run peeled off. -/
theorem concatSpans_cons (s : Span) (l : List Span) :
    concatSpans (s :: l) = s.text ++ concatSpans l := rfl

/-- Concatenating the emitted runs realizes the declarative splice: the
gap guard omits exactly the empty gaps, and the trailing guard omits
exactly the empty remainder. -/
theorem concat_emitRuns (t : Text) :
    ∀ (fs : List Fmt) (lastEnd : Nat),
      concatSpans (emitRuns t lastEnd fs) = spliceFmts t lastEnd fs := by
  intro fs
  induction fs with
  | nil =>
    intro lastEnd
    unfold emitRuns spliceFmts
    by_cases h : lastEnd < t.length
    · rw [if_pos h, concatSpans_cons]
      exact List.append_nil _
    · rw [if_neg h, List.drop_eq_nil_of_le (Nat.not_lt.mp h)]
      rfl
  | cons f rest ih =>
    intro lastEnd
    unfold emitRuns spliceFmts
    by_cases h : lastEnd < f.start
    · rw [if_pos h, List.singleton_append, concatSpans_cons, concatSpans_cons, ih,
        List.append_assoc]
    · rw [if_neg h, List.nil_append, concatSpans_cons, ih]
      have hslice : sliceTxt t lastEnd f.start = [] := by
        unfold sliceTxt
        rw [Nat.sub_eq_zero_of_le (Nat.le_of_not_lt h)]
        rfl
      rw [hslice, List.nil_append]

/-- A shape certificate established on a suffix of the text at an
advanced position transfers to the whole text. -/
theorem shape_shift {s : Text} {p : Nat} {f : Fmt} (d : Nat)
    (h : p + d ≤ f.start ∧ f.fin = f.start + f.original.length ∧
      ((s.drop d).drop (f.start - (p + d))).take f.original.length = f.original ∧
      markerShape f = true) :
    p ≤ f.start ∧ f.fin = f.start + f.original.length ∧
      (s.drop (f.start - p)).take f.original.length = f.original ∧
      markerShape f = true := by
  obtain ⟨h1, h2, h3, h4⟩ := h
  refine ⟨by omega, h2, ?_, h4⟩
  rw [List.drop_drop] at h3
  have harith : d + (f.start - (p + d)) = f.start - p := by omega
  rw [harith] at h3
  exact h3

/-- Every match the inline-code scanner reports sits at or after the
scan position, spans exactly its matched text, occupies that range of
the scanned text, and is a backtick-wrapped content. -/
theorem scanCode_shape :
    ∀ (fuel : Nat) (s : Text) (p : Nat) (f : Fmt), f ∈ scanCode fuel s p →
      (p ≤ f.start ∧ f.fin = f.start + f.original.length ∧
        (s.drop (f.start - p)).take f.original.length = f.original ∧
        markerShape f = true) ∧ f.kind = FmtKind.code := by
  intro fuel
  induction fuel with
  | zero => intro s p f h; simp [scanCode] at h
  | succ fuel ih =>
    intro s p f h
    cases s with
    | nil => simp [scanCode] at h
    | cons c0 u =>
      unfold scanCode at h
      dsimp only at h
      by_cases hc : c0 = tick
      · rw [if_pos hc] at h
        subst hc
        cases u with
        | nil =>
          refine ⟨shape_shift 1 ?_, (ih _ _ f h).2⟩
          exact (ih [] (p + 1) f h).1
        | cons u0 urest =>
          dsimp only at h
          by_cases hn : u0 = '\n'
          · rw [if_pos hn] at h
            exact ⟨shape_shift 1 (ih _ (p + 1) f h).1, (ih _ _ f h).2⟩
          · rw [if_neg hn] at h
            cases hfs : findStop urest tick with
            | none =>
              rw [hfs] at h
              exact ⟨shape_shift 1 (ih _ (p + 1) f h).1, (ih _ _ f h).2⟩
            | some j =>
              rw [hfs] at h
              simp only [List.mem_cons] at h
              rcases h with h | h
              · subst h
                have hdropj := findStop_drop urest j hfs
                have hjlt : j < urest.length := by
                  have hlen := congrArg List.length hdropj
                  rw [List.length_drop, List.length_cons, List.length_drop] at hlen
                  omega
                have htakej : (urest.take j).length = j := by
                  rw [List.length_take]
                  exact Nat.min_eq_left (Nat.le_of_lt hjlt)
                have hclen : (u0 :: urest.take j).length = j + 1 := by
                  rw [List.length_cons, htakej]
                have holen : (tick :: ((u0 :: urest.take j) ++ [tick])).length = j + 3 := by
                  simp [htakej]
                refine ⟨⟨Nat.le_refl _, ?_, ?_, ?_⟩, rfl⟩
                · simp only [holen, hclen]
                  omega
                · simp only [Nat.sub_self, List.drop_zero, holen]
                  have htake1 : urest.take (j + 1) = urest.take j ++ [tick] := by
                    have := take_add_of_drop hdropj (Nat.le_of_lt hjlt) 1
                    simpa using this
                  show (tick :: u0 :: urest).take (j + 3) = _
                  have h3 : j + 3 = (j + 1) + 1 + 1 := by omega
                  rw [h3, List.take_succ_cons, List.take_succ_cons, htake1]
                  simp
                · simp [markerShape]
              · refine ⟨shape_shift ((u0 :: urest.take j).length + 2) ?_,
                  (ih _ _ f h).2⟩
                have hdd : (tick :: u0 :: urest).drop ((u0 :: urest.take j).length + 2) =
                    (u0 :: urest).drop ((u0 :: urest.take j).length + 1) := by
                  rfl
                rw [hdd]
                exact (ih _ _ f h).1
      · rw [if_neg hc] at h
        exact ⟨shape_shift 1 (ih _ (p + 1) f h).1, (ih _ _ f h).2⟩

/-- Every match the bold scanner reports sits at or after the scan
position, spans exactly its matched text, occupies that range of the
scanned text, and is a content wrapped in paired two-star or
two-underscore delimiters. -/
theorem scanBold_shape :
    ∀ (fuel : Nat) (s : Text) (p : Nat) (f : Fmt), f ∈ scanBold fuel s p →
      (p ≤ f.start ∧ f.fin = f.start + f.original.length ∧
        (s.drop (f.start - p)).take f.original.length = f.original ∧
        markerShape f = true) ∧ f.kind = FmtKind.bold := by
  intro fuel
  induction fuel with
  | zero => intro s p f h; simp [scanBold] at h
  | succ fuel ih =>
    intro s p f h
    cases s with
    | nil => simp [scanBold] at h
    | cons c1 s1 =>
    cases s1 with
    | nil => simp [scanBold] at h
    | cons c2 u =>
      unfold scanBold at h
      dsimp only at h
      by_cases hd : ((c1 = '*' && c2 = '*') || (c1 = '_' && c2 = '_')) = true
      · rw [if_pos hd] at h
        have hc21 : c2 = c1 ∧ (c1 = '*' ∨ c1 = '_') := by
          rcases Bool.or_eq_true_iff.mp hd with h2 | h2 <;>
            · rw [Bool.and_eq_true] at h2
              obtain ⟨ha, hb⟩ := h2
              have ha' := of_decide_eq_true ha
              have hb' := of_decide_eq_true hb
              subst ha'
              exact ⟨hb', by simp⟩
        obtain ⟨hc2, hstar⟩ := hc21
        rw [hc2] at h ⊢
        cases u with
        | nil =>
          exact ⟨shape_shift 1 (ih _ (p + 1) f h).1, (ih _ _ f h).2⟩
        | cons u0 urest =>
          dsimp only at h
          by_cases hn : u0 = '\n'
          · rw [if_pos hn] at h
            exact ⟨shape_shift 1 (ih _ (p + 1) f h).1, (ih _ _ f h).2⟩
          · rw [if_neg hn] at h
            cases hfs : findPair urest c1 with
            | none =>
              rw [hfs] at h
              exact ⟨shape_shift 1 (ih _ (p + 1) f h).1, (ih _ _ f h).2⟩
            | some j =>
              rw [hfs] at h
              simp only [List.mem_cons] at h
              rcases h with h | h
              · subst h
                have hdropj := findPair_drop urest j hfs
                have hjlt : j + 2 ≤ urest.length := by
                  have hlen := congrArg List.length hdropj
                  rw [List.length_drop, List.length_cons, List.length_cons,
                    List.length_drop] at hlen
                  omega
                have htakej : (urest.take j).length = j := by
                  rw [List.length_take]
                  exact Nat.min_eq_left (by omega)
                have hclen : (u0 :: urest.take j).length = j + 1 := by
                  rw [List.length_cons, htakej]
                have holen : (c1 :: c1 :: ((u0 :: urest.take j) ++ [c1, c1])).length =
                    j + 5 := by
                  simp [htakej]
                refine ⟨⟨Nat.le_refl _, ?_, ?_, ?_⟩, rfl⟩
                · simp only [holen, hclen]
                  omega
                · simp only [Nat.sub_self, List.drop_zero, holen]
                  have htake2 : urest.take (j + 2) = urest.take j ++ [c1, c1] := by
                    have := take_add_of_drop hdropj (by omega) 2
                    simpa using this
                  show (c1 :: c1 :: u0 :: urest).take (j + 5) = _
                  have h5 : j + 5 = (j + 2) + 1 + 1 + 1 := by omega
                  rw [h5, List.take_succ_cons, List.take_succ_cons, List.take_succ_cons,
                    htake2]
                  simp
                · rcases hstar with hs1 | hs1 <;>
                    · subst hs1
                      simp [markerShape]
              · refine ⟨shape_shift ((u0 :: urest.take j).length + 4) ?_,
                  (ih _ _ f h).2⟩
                have hdd : (c1 :: c1 :: u0 :: urest).drop ((u0 :: urest.take j).length + 4) =
                    (c1 :: u0 :: urest).drop ((u0 :: urest.take j).length + 3) := by
                  rfl
                rw [hdd]
                exact (ih _ _ f h).1
      · rw [if_neg hd] at h
        exact ⟨shape_shift 1 (ih _ (p + 1) f h).1, (ih _ _ f h).2⟩

/-- The lazy URL capture ends exactly at a closing parenthesis. -/
theorem linkTail_drop (v : Text) (m : Nat) (h : linkTail v = some m) :
    v.drop m = ')' :: v.drop (m + 1) := by
  cases v with
  | nil => exact Option.noConfusion h
  | cons x xs =>
    unfold linkTail at h
    dsimp only at h
    by_cases hn : x = '\n'
    · rw [if_pos hn] at h; cases h
    · rw [if_neg hn] at h
      cases hfs : findStop xs ')' with
      | none => rw [hfs] at h; cases h
      | some j =>
        rw [hfs] at h
        simp at h
        subst h
        exact findStop_drop xs j hfs

/-- A successful body search decomposes the text after the opening
bracket into the first capture, the bracket/parenthesis frame, the
second capture, the closing parenthesis and a remainder; the first
capture extends the accumulated prefix. -/
theorem linkFind_some :
    ∀ (fuel : Nat) (c1rev w c1 c2 : Text),
      linkFind fuel c1rev w = some (c1, c2) →
      ∃ mid rest, w = mid ++ ']' :: '(' :: (c2 ++ ')' :: rest) ∧
        c1 = c1rev.reverse ++ mid := by
  intro fuel
  induction fuel with
  | zero => intro c1rev w c1 c2 h; exact Option.noConfusion h
  | succ fuel ih =>
    intro c1rev w c1 c2 h
    unfold linkFind at h
    cases hfs : findStop w ']' with
    | none => rw [hfs] at h; cases h
    | some j =>
      rw [hfs] at h
      dsimp only at h
      have hdropj := findStop_drop w j hfs
      split at h
      · rename_i v heq
        cases hlt : linkTail v with
        | some m =>
          rw [hlt] at h
          simp only [Option.some.injEq, Prod.mk.injEq] at h
          obtain ⟨hc1, hc2⟩ := h
          refine ⟨w.take j, v.drop (m + 1), ?_, ?_⟩
          · have hv : v = c2 ++ ')' :: v.drop (m + 1) := by
              conv_lhs => rw [← List.take_append_drop m v]
              rw [linkTail_drop v m hlt, hc2]
            conv_lhs => rw [← List.take_append_drop j w]
            rw [hdropj, heq]
            conv_lhs => rw [hv]
          · rw [← hc1, List.reverse_append, List.reverse_reverse]
        | none =>
          rw [hlt] at h
          obtain ⟨mid2, rest2, hw2, hc12⟩ := ih (']' :: (w.take j).reverse ++ c1rev)
            (w.drop (j + 1)) c1 c2 h
          refine ⟨w.take j ++ ']' :: mid2, rest2, ?_, ?_⟩
          · conv_lhs => rw [← List.take_append_drop j w]
            rw [hdropj, hw2]
            simp
          · rw [hc12]
            simp
      · rename_i hne
        obtain ⟨mid2, rest2, hw2, hc12⟩ := ih (']' :: (w.take j).reverse ++ c1rev)
          (w.drop (j + 1)) c1 c2 h
        refine ⟨w.take j ++ ']' :: mid2, rest2, ?_, ?_⟩
        · conv_lhs => rw [← List.take_append_drop j w]
          rw [hdropj, hw2]
          simp
        · rw [hc12]
          simp

/-- Every match the link scanner reports sits at or after the scan
position, spans exactly its matched text, occupies that range of the
scanned text, and is the bracket/parenthesis frame around its text and
URL captures. -/
theorem scanLink_shape :
    ∀ (fuel : Nat) (s : Text) (p : Nat) (f : Fmt), f ∈ scanLink fuel s p →
      (p ≤ f.start ∧ f.fin = f.start + f.original.length ∧
        (s.drop (f.start - p)).take f.original.length = f.original ∧
        markerShape f = true) ∧ (∃ url, f.kind = FmtKind.link url) := by
  intro fuel
  induction fuel with
  | zero => intro s p f h; simp [scanLink] at h
  | succ fuel ih =>
    intro s p f h
    cases s with
    | nil => simp [scanLink] at h
    | cons c0 u =>
      unfold scanLink at h
      dsimp only at h
      by_cases hc : c0 = '['
      · rw [if_pos hc] at h
        subst hc
        cases u with
        | nil =>
          exact ⟨shape_shift 1 (ih _ (p + 1) f h).1, (ih _ _ f h).2⟩
        | cons u0 urest =>
          dsimp only at h
          by_cases hn : u0 = '\n'
          · rw [if_pos hn] at h
            exact ⟨shape_shift 1 (ih _ (p + 1) f h).1, (ih _ _ f h).2⟩
          · rw [if_neg hn] at h
            cases hlf : linkFind (urest.length + 1) [u0] urest with
            | none =>
              rw [hlf] at h
              exact ⟨shape_shift 1 (ih _ (p + 1) f h).1, (ih _ _ f h).2⟩
            | some pair =>
              obtain ⟨c1, c2⟩ := pair
              rw [hlf] at h
              simp only [List.mem_cons] at h
              rcases h with h | h
              · subst h
                obtain ⟨mid, rest, hw, hc1⟩ :=
                  linkFind_some (urest.length + 1) [u0] urest c1 c2 hlf
                have hc1' : c1 = u0 :: mid := by
                  rw [hc1]
                  rfl
                have hs : ('[' : Char) :: u0 :: urest =
                    '[' :: (c1 ++ ']' :: '(' :: (c2 ++ ')' :: rest)) := by
                  rw [hc1', hw]
                  rfl
                have holen : ('[' :: (c1 ++ ']' :: '(' :: (c2 ++ [')']))).length =
                    c1.length + c2.length + 4 := by
                  simp
                  omega
                refine ⟨⟨Nat.le_refl _, ?_, ?_, ?_⟩, c2, rfl⟩
                · simp only [holen]
                  omega
                · simp only [Nat.sub_self, List.drop_zero, holen, hs]
                  have harith : c1.length + c2.length + 4 =
                      (c1.length + (c2.length + 3)) + 1 := by omega
                  rw [harith, List.take_succ_cons]
                  have h1 : (c1 ++ ']' :: '(' :: (c2 ++ ')' :: rest)).take
                      (c1.length + (c2.length + 3)) =
                      c1 ++ (']' :: '(' :: (c2 ++ ')' :: rest)).take (c2.length + 3) := by
                    exact List.take_append (c2.length + 3)
                  rw [h1]
                  have h2 : (']' :: '(' :: (c2 ++ ')' :: rest)).take (c2.length + 3) =
                      ']' :: '(' :: (c2 ++ ')' :: rest).take (c2.length + 1) := by
                    rfl
                  rw [h2]
                  have h3 : (c2 ++ ')' :: rest).take (c2.length + 1) =
                      c2 ++ (')' :: rest).take 1 := List.take_append 1
                  rw [h3]
                  rfl
                · simp [markerShape]
              · have ha : p + (c1.length + c2.length + 4) =
                    p + c1.length + c2.length + 4 := by omega
                refine ⟨shape_shift (c1.length + c2.length + 4) ?_, (ih _ _ f h).2⟩
                rw [ha]
                exact (ih _ _ f h).1
      · rw [if_neg hc] at h
        exact ⟨shape_shift 1 (ih _ (p + 1) f h).1, (ih _ _ f h).2⟩

/-- Claim C4, counterexample.  On `sampleOverlap` the emitted spans do
NOT reconstruct the line with its markers stripped: the code match
strictly containing the bold match is accepted alongside it (see the C2
counterexample), the cursor runs backwards during emission, and the
concatenated span texts duplicate part of the line — the result is even
longer than the input, which no marker-stripping of the input can be,
and differs from the stripped reading `a b c`. -/
theorem c4_reconstruction_fails :
    concatSpans (processMarkdownText sampleOverlap) = "a __b__ cb c".toList ++ [tick] ∧
    (concatSpans (processMarkdownText sampleOverlap)).length > sampleOverlap.length ∧
    concatSpans (processMarkdownText sampleOverlap) ≠ "a b c".toList := by
  refine ⟨by decide, by decide, by decide⟩

/-- Claim C4, amended.  Whenever the accepted matches form an ordered
chain of non-intersecting ranges inside the (two-star-stripped) text —
which the counterexample shows can fail — the emitted spans are ordered
and contiguous: their concatenation equals the splice of the text that
keeps every gap verbatim and replaces each accepted match's range by its
captured content; and every accepted match's range carries exactly its
matched text, which is its content wrapped in its markers (so the
concatenation is the text with the markers of the accepted matches
stripped). -/
theorem c4_spans_reconstruct (text : Text)
    (_hchain : chainFrom (subStarF text) 0 (acceptedFormats text) = true) :
    concatSpans (processMarkdownText text) =
      spliceFmts (subStarF text) 0 (acceptedFormats text) ∧
    ∀ f ∈ acceptedFormats text,
      sliceTxt (subStarF text) f.start f.fin = f.original ∧ markerShape f = true := by
  constructor
  · unfold processMarkdownText
    cases hfs : acceptedFormats text with
    | nil =>
      simp [spliceFmts, concatSpans]
    | cons f fs =>
      rw [concat_emitRuns]
  · intro f hf
    have hshape : 0 ≤ f.start ∧ f.fin = f.start + f.original.length ∧
        ((subStarF text).drop (f.start - 0)).take f.original.length = f.original ∧
        markerShape f = true := by
      unfold acceptedFormats collectFormats at hf
      have h1 := mem_sortByStart _ hf
      rcases mem_foldl_tryAdd _ _ _ h1 with h2 | h2
      · rcases mem_foldl_tryAdd _ _ _ h2 with h3 | h3
        · exact (scanBold_shape _ _ _ f h3).1
        · exact (scanCode_shape _ _ _ f h3).1
      · exact (scanLink_shape _ _ _ f h2).1
    obtain ⟨-, hfin, htake, hmark⟩ := hshape
    refine ⟨?_, hmark⟩
    unfold sliceTxt
    rw [hfin, Nat.add_sub_cancel_left]
    rw [Nat.sub_zero] at htake
    exact htake

/-- Witness for the reconstruction theorem on a line whose code, link
and bold matches are pairwise disjoint. -/
theorem c4_spans_witness :
    concatSpans (processMarkdownText sampleDisjoint) =
      spliceFmts (subStarF sampleDisjoint) 0 (acceptedFormats sampleDisjoint) :=
  (c4_spans_reconstruct sampleDisjoint (by decide)).1

end MD
